import Mathlib

/-!
Verification of the SIV128 (crypto/modes/siv128.c) and KMAC
(providers/common/macs/kmac_prov.c) cores.

Byte strings are `List Nat` with every element below 256.  A `SIV_BLOCK`
is a list of 16 bytes.  The external primitives (the CMAC MAC fetched by
`CRYPTO_siv128_init`, the AES-CTR stream cipher, and the Keccak XOF used
by KMAC) are out of scope of the repository and are passed as function
parameters: `cmac` maps an absorbed message to its 16-byte MAC, `ks`
maps an initial counter block and a length to that many keystream bytes
(CTR encryption XORs the keystream into the data), and `xof` maps the
absorbed byte stream and a requested length to that many squeezed bytes.
-/

namespace OpenSSLProof

/-- Big-endian value of a byte list (the first byte is most significant). -/
def beBytesToNat : List Nat → Nat
  | [] => 0
  | b :: bs => b * 2 ^ (8 * bs.length) + beBytesToNat bs

/-- The `n` big-endian bytes of `x % 2^(8*n)`. -/
def natToBeBytes : Nat → Nat → List Nat
  | 0, _ => []
  | n + 1, x => (x / 2 ^ (8 * n)) % 256 :: natToBeBytes n x

/-- `SIV_LEN` from siv_int.h: the SIV block size in bytes. -/
def SIV_LEN : Nat := 16

/-- `siv128_getword`: read 64-bit word `i` of a block.  On a little-endian
host the code byteswaps the stored word, so on any host the result is the
big-endian value of bytes `8*i .. 8*i+7`. -/
def siv128_getword (b : List Nat) (i : Nat) : Nat :=
  beBytesToNat ((b.drop (8 * i)).take 8)

/-- `siv128_xorblock`: XOR the second block into the first.  The C code
XORs the two stored 64-bit words; since XOR acts bitwise and the words
are disjoint byte ranges, this is the byte-wise XOR of the two blocks. -/
def siv128_xorblock (x y : List Nat) : List Nat :=
  List.zipWith Nat.xor x y

/-- `siv128_dbl`: double a block as an element of GF(2^128) modulo
x^128 + x^7 + x^2 + x + 1.  `low_mask` mirrors the two's-complement
negation `-((int64_t)(high_carry >> 63)) & 0x87` as arithmetic modulo
2^64; the word shifts wrap modulo 2^64 as the C uint64 ops do. -/
def siv128_dbl (b : List Nat) : List Nat :=
  let high := siv128_getword b 0
  let low := siv128_getword b 1
  let high_carry := high &&& (1 <<< 63)
  let low_carry := low &&& (1 <<< 63)
  let low_mask := ((2 ^ 64 - (high_carry >>> 63)) % 2 ^ 64) &&& 0x87
  let high_mask := low_carry >>> 63
  natToBeBytes 8 (((high <<< 1) % 2 ^ 64) ||| high_mask)
    ++ natToBeBytes 8 (((low <<< 1) % 2 ^ 64) ^^^ low_mask)

/-- `siv128_do_s2v_p`: the final S2V step over input `in`.  The code
streams `in[0 .. len-16)` and then the XORed last block into a duplicate
of the keyed CMAC context, so the MAC input is their concatenation.
Returns the (possibly doubled) accumulator and the MAC output, or `none`
when the MAC does not produce exactly `SIV_LEN` bytes. -/
def siv128_do_s2v_p (cmac : List Nat → List Nat) (d : List Nat)
    (inp : List Nat) : List Nat × Option (List Nat) :=
  if SIV_LEN ≤ inp.length then
    let t := siv128_xorblock (inp.drop (inp.length - SIV_LEN)) d
    let out := cmac (inp.take (inp.length - SIV_LEN) ++ t)
    (d, if out.length = SIV_LEN then some out else none)
  else
    let t := siv128_xorblock
      (inp ++ 0x80 :: List.replicate (SIV_LEN - inp.length - 1) 0)
      (siv128_dbl d)
    let out := cmac t
    (siv128_dbl d, if out.length = SIV_LEN then some out else none)

/-- `siv128_do_encrypt`: CTR encryption starting from counter block
`icv`, which XORs the keystream into the data. -/
def siv128_do_encrypt (ks : List Nat → Nat → List Nat) (icv : List Nat)
    (inp : List Nat) : List Nat :=
  List.zipWith Nat.xor inp (ks icv inp.length)

/-- The mutable state of `SIV128_CONTEXT` relevant to the algorithms:
the S2V accumulator `d`, the `tag` block, the sticky result `final_ret`
and the one-shot counter `crypto_ok` (both C ints). -/
structure SIV128_CONTEXT where
  d : List Nat
  tag : List Nat
  final_ret : Int
  crypto_ok : Int
  deriving Repr, DecidableEq

/-- `CRYPTO_siv128_init`: zero `d`, then set `d` to the CMAC of one zero
block; `final_ret := -1`, `crypto_ok := 1`.  The C code leaves `tag`
uninitialised; it is modelled as the zero block, and no claim depends on
its initial value. -/
def CRYPTO_siv128_init (cmac : List Nat → List Nat) : SIV128_CONTEXT :=
  { d := cmac (List.replicate SIV_LEN 0)
    tag := List.replicate SIV_LEN 0
    final_ret := -1
    crypto_ok := 1 }

/-- `CRYPTO_siv128_aad`: double `d` first, CMAC the segment with a fresh
duplicate of the keyed CMAC, then XOR the MAC into `d`.  When the MAC
does not yield `SIV_LEN` bytes the call fails with `d` already doubled.
There is no check of `crypto_ok`. -/
def CRYPTO_siv128_aad (cmac : List Nat → List Nat) (ctx : SIV128_CONTEXT)
    (aad : List Nat) : SIV128_CONTEXT × Int :=
  let d1 := siv128_dbl ctx.d
  let mac_out := cmac aad
  if mac_out.length = SIV_LEN then
    ({ ctx with d := siv128_xorblock d1 mac_out }, 1)
  else
    ({ ctx with d := d1 }, 0)

/-- Clear the top bit of bytes 8 and 12 of the synthetic IV, as
`q.byte[8] &= 0x7f; q.byte[12] &= 0x7f` does. -/
def siv128_clear_ctr_bits (q : List Nat) : List Nat :=
  let q1 := q.set 8 (q.getD 8 0 &&& 0x7f)
  q1.set 12 (q1.getD 12 0 &&& 0x7f)

/-- `CRYPTO_siv128_encrypt`: fail (returning 0, nothing written) when the
budget is exhausted, otherwise decrement it, run S2V over `d` and the
plaintext, store the S2V output as the tag, clear the two counter bits,
CTR-encrypt, set `final_ret := 0` and return the length. -/
def CRYPTO_siv128_encrypt (cmac : List Nat → List Nat)
    (ks : List Nat → Nat → List Nat) (ctx : SIV128_CONTEXT)
    (inp : List Nat) : SIV128_CONTEXT × List Nat × Int :=
  if ctx.crypto_ok = 0 then (ctx, [], 0)
  else
    let ctx1 : SIV128_CONTEXT := { ctx with crypto_ok := ctx.crypto_ok - 1 }
    let s := siv128_do_s2v_p cmac ctx1.d inp
    match s.2 with
    | none => ({ ctx1 with d := s.1 }, [], 0)
    | some q =>
        let out := siv128_do_encrypt ks (siv128_clear_ctr_bits q) inp
        ({ ctx1 with d := s.1, tag := q, final_ret := 0 }, out,
          Int.ofNat inp.length)

/-- `CRYPTO_siv128_decrypt`: fail when the budget is exhausted, otherwise
decrement it, CTR-decrypt under the stored tag with its two counter bits
cleared, re-run S2V over the candidate plaintext, XOR the S2V output with
the stored tag byte-by-byte and test the two words of the result at once;
on mismatch cleanse the output buffer and fail, on match set
`final_ret := 0` and return the length. -/
def CRYPTO_siv128_decrypt (cmac : List Nat → List Nat)
    (ks : List Nat → Nat → List Nat) (ctx : SIV128_CONTEXT)
    (inp : List Nat) : SIV128_CONTEXT × List Nat × Int :=
  if ctx.crypto_ok = 0 then (ctx, [], 0)
  else
    let ctx1 : SIV128_CONTEXT := { ctx with crypto_ok := ctx.crypto_ok - 1 }
    let out := siv128_do_encrypt ks (siv128_clear_ctr_bits ctx1.tag) inp
    let s := siv128_do_s2v_p cmac ctx1.d out
    let ctx2 : SIV128_CONTEXT := { ctx1 with d := s.1 }
    match s.2 with
    | none => (ctx2, out, 0)
    | some t =>
        let t1 := List.zipWith Nat.xor t ctx2.tag
        if siv128_getword t1 0 ||| siv128_getword t1 1 ≠ 0 then
          (ctx2, List.replicate inp.length 0, 0)
        else
          ({ ctx2 with final_ret := 0 }, out, Int.ofNat inp.length)

/-- `CRYPTO_siv128_finish`: return the sticky result. -/
def CRYPTO_siv128_finish (ctx : SIV128_CONTEXT) : Int :=
  ctx.final_ret

/-- `CRYPTO_siv128_set_tag`: a 16-byte copy in; any other length fails. -/
def CRYPTO_siv128_set_tag (ctx : SIV128_CONTEXT) (tag : List Nat) :
    SIV128_CONTEXT × Int :=
  if tag.length = SIV_LEN then ({ ctx with tag := tag }, 1) else (ctx, 0)

/-- `CRYPTO_siv128_get_tag`: a 16-byte copy out; any other length fails. -/
def CRYPTO_siv128_get_tag (ctx : SIV128_CONTEXT) (len : Nat) :
    Option (List Nat) :=
  if len = SIV_LEN then some ctx.tag else none

/-- Run a list of AAD segments through `CRYPTO_siv128_aad`, keeping the
context of each call (driver used to state the round-trip claim). -/
def sivAadList (cmac : List Nat → List Nat) (ctx : SIV128_CONTEXT) :
    List (List Nat) → SIV128_CONTEXT
  | [] => ctx
  | a :: rest => sivAadList cmac (CRYPTO_siv128_aad cmac ctx a).1 rest

/-- Selector over the two one-shot crypto operations, used to state the
budget claim for every combination of encrypt and decrypt. -/
def sivCryptoOp (enc : Bool) (cmac : List Nat → List Nat)
    (ks : List Nat → Nat → List Nat) (ctx : SIV128_CONTEXT)
    (inp : List Nat) : SIV128_CONTEXT × List Nat × Int :=
  if enc then CRYPTO_siv128_encrypt cmac ks ctx inp
  else CRYPTO_siv128_decrypt cmac ks ctx inp

/-! ## KMAC (providers/common/macs/kmac_prov.c) -/

/-- The loop of `get_encode_size`: `while (bits && (cnt < sz)) { ++cnt;
bits >>= 8; }` with `sz = sizeof(size_t) = 8`.  The counter grows on
every iteration, so 8 units of fuel make the fuelled recursion exact. -/
def encSizeLoop : Nat → Nat → Nat → Nat
  | 0, _, cnt => cnt
  | fuel + 1, bits, cnt =>
      if bits ≠ 0 ∧ cnt < 8 then encSizeLoop fuel (bits >>> 8) (cnt + 1)
      else cnt

/-- `get_encode_size`: number of bytes required to store `bits`, at most
`sizeof(size_t) = 8`, and 1 when `bits` is zero. -/
def get_encode_size (bits : Nat) : Nat :=
  let cnt := encSizeLoop 8 bits 0
  if cnt = 0 then 1 else cnt

/-- `right_encode`: the value bytes big-endian followed by the byte
count.  Fails when the byte count exceeds 0xFF. -/
def right_encode (bits : Nat) : Option (List Nat) :=
  let len := get_encode_size bits
  if 0xFF < len then none
  else
    some (((List.range len).map fun i => (bits >>> (8 * (len - 1 - i))) &&& 0xFF)
      ++ [len])

/-- `encode_string` on a present (non-null) input string: the byte count,
the big-endian bytes of the bit length `8 * |in|`, then the string.
Fails when the byte count exceeds 0xFF. -/
def encode_string (inp : List Nat) : Option (List Nat) :=
  let bits := 8 * inp.length
  let len := get_encode_size bits
  if 0xFF < len then none
  else
    some (len :: ((List.range len).map fun i => (bits >>> (8 * (len - 1 - i))) &&& 0xFF)
      ++ inp)

/-- The fields of `struct kmac_data_st` that `kmac_final` reads: the
bytes absorbed into the digest context so far, the requested output
length, and the `xof_mode` int. -/
structure kmac_data_st where
  absorbed : List Nat
  out_len : Nat
  xof_mode : Int
  deriving Repr, DecidableEq

/-- `kmac_final`: absorb `right_encode(xof_mode ? 0 : out_len*8)`, then
squeeze `out_len` bytes and report `out_len` bytes written.  The
`outsize` argument is accepted and never read, exactly as in the C. -/
def kmac_final (xof : List Nat → Nat → List Nat) (kctx : kmac_data_st)
    (outsize : Nat) : Option (List Nat × Nat) :=
  let lbits := if kctx.xof_mode ≠ 0 then 0 else kctx.out_len * 8
  match right_encode lbits with
  | none => none
  | some enc => some (xof (kctx.absorbed ++ enc) kctx.out_len, kctx.out_len)

/-! ## Definitions taken from the spec's words

These two definitions follow the specification text, not the C source;
they exist to be compared with `get_encode_size` and `encode_string`. -/

/-- Fuelled helper for `minBytes`; the value is fuel-independent once
the fuel covers the base-256 digit count (`minBytesF_congr`). -/
def minBytesF : Nat → Nat → Nat
  | 0, _ => 1
  | fuel + 1, x => if x < 256 then 1 else minBytesF fuel (x / 256) + 1

/-- Modelled from the spec: "the minimum byte count `n >= 1` needed to
represent `x`", that is the number of base-256 digits of `x` (1 for 0). -/
def minBytes (x : Nat) : Nat := minBytesF x x

/-- Modelled from the spec: `left_encode(x)` emits the minimum byte
count `n >= 1` and then those `n` value bytes big-endian. -/
def left_encode_spec (x : Nat) : List Nat :=
  minBytes x :: natToBeBytes (minBytes x) x

/-! ## Byte-list arithmetic lemmas -/

theorem length_natToBeBytes (n x : Nat) : (natToBeBytes n x).length = n := by
  induction n generalizing x with
  | zero => rfl
  | succ n ih => simp [natToBeBytes, ih]

theorem beBytesToNat_append (l1 l2 : List Nat) :
    beBytesToNat (l1 ++ l2)
      = beBytesToNat l1 * 2 ^ (8 * l2.length) + beBytesToNat l2 := by
  induction l1 with
  | nil => simp [beBytesToNat]
  | cons b bs ih =>
      simp only [List.cons_append, beBytesToNat, ih, List.length_append,
        List.append_eq]
      rw [Nat.mul_add, Nat.pow_add]
      ring

theorem beBytesToNat_natToBeBytes (n x : Nat) :
    beBytesToNat (natToBeBytes n x) = x % 2 ^ (8 * n) := by
  induction n generalizing x with
  | zero => simp [natToBeBytes, beBytesToNat, Nat.mod_one]
  | succ n ih =>
      simp only [natToBeBytes, beBytesToNat, ih, length_natToBeBytes]
      have h256 : (2 : Nat) ^ (8 * (n + 1)) = 2 ^ (8 * n) * 256 := by
        rw [Nat.mul_add, Nat.pow_add]
      rw [h256, Nat.mod_mul]
      ring

theorem beBytesToNat_lt (l : List Nat) (h : ∀ x ∈ l, x < 256) :
    beBytesToNat l < 2 ^ (8 * l.length) := by
  induction l with
  | nil => simp [beBytesToNat]
  | cons b bs ih =>
      have hb : b < 256 := h b (List.mem_cons_self b bs)
      have hbs := ih fun x hx => h x (List.mem_cons_of_mem b hx)
      simp only [beBytesToNat, List.length_cons]
      have h1 : (2 : Nat) ^ (8 * (bs.length + 1)) = 256 * 2 ^ (8 * bs.length) := by
        rw [Nat.mul_add, Nat.pow_add]; ring
      rw [h1]
      calc b * 2 ^ (8 * bs.length) + beBytesToNat bs
          < b * 2 ^ (8 * bs.length) + 2 ^ (8 * bs.length) := by omega
        _ = (b + 1) * 2 ^ (8 * bs.length) := by ring
        _ ≤ 256 * 2 ^ (8 * bs.length) := by
            exact Nat.mul_le_mul_right _ (by omega)

theorem beBytesToNat_eq_zero (l : List Nat) :
    beBytesToNat l = 0 ↔ ∀ x ∈ l, x = 0 := by
  induction l with
  | nil => simp [beBytesToNat]
  | cons b bs ih =>
      have hp := Nat.two_pow_pos (8 * bs.length)
      simp only [beBytesToNat, List.mem_cons, Nat.add_eq_zero,
        Nat.mul_eq_zero]
      constructor
      · rintro ⟨hb, hbs⟩ x hx
        rcases hx with rfl | hx
        · rcases hb with hb | hb
          · exact hb
          · omega
        · exact (ih.1 hbs) x hx
      · intro hx
        refine ⟨Or.inl (hx b (Or.inl rfl)), ih.2 fun x h => hx x (Or.inr h)⟩

theorem natXor_cancel_right (m n : Nat) : Nat.xor (Nat.xor m n) n = m :=
  Nat.xor_cancel_right n m

theorem natXor_self_eq_zero (a : Nat) : Nat.xor a a = 0 :=
  Nat.xor_self a

theorem zipWith_xor_cancel (p k : List Nat) (h : p.length ≤ k.length) :
    List.zipWith Nat.xor (List.zipWith Nat.xor p k) k = p := by
  induction p generalizing k with
  | nil => simp
  | cons a as ih =>
      cases k with
      | nil => simp at h
      | cons b bs =>
          simp only [List.zipWith_cons_cons, natXor_cancel_right]
          exact congrArg _ (ih bs (by simpa using h))

theorem zipWith_xor_self (l : List Nat) :
    List.zipWith Nat.xor l l = List.replicate l.length 0 := by
  induction l with
  | nil => rfl
  | cons a as ih =>
      simp only [List.zipWith_cons_cons, natXor_self_eq_zero,
        List.replicate_succ]
      exact congrArg _ ih

/-! ## Bit-range lemmas -/

theorem mul_pow_add_xor (a b m i : Nat) (hb : b < 2 ^ i) (hm : m < 2 ^ i) :
    (2 ^ i * a + b) ^^^ m = 2 ^ i * a + (b ^^^ m) := by
  apply Nat.eq_of_testBit_eq
  intro j
  rw [Nat.testBit_xor, Nat.testBit_mul_pow_two_add a hb,
    Nat.testBit_mul_pow_two_add a (Nat.xor_lt_two_pow hb hm)]
  by_cases hj : j < i
  · simp [hj]
  · have hmj : m < 2 ^ j :=
      lt_of_lt_of_le hm (Nat.pow_le_pow_right (by norm_num) (le_of_not_lt hj))
    simp [hj, Nat.testBit_lt_two_pow hmj]

/-! ## Word view of a 16-byte block -/

theorem block_words (b : List Nat) (hb : b.length = 16) :
    beBytesToNat b = 2 ^ 64 * siv128_getword b 0 + siv128_getword b 1 := by
  conv_lhs => rw [← List.take_append_drop 8 b]
  rw [beBytesToNat_append]
  have h1 : (List.drop 8 b).length = 8 := by simp [hb]
  have h2 : (b.drop 8).take 8 = b.drop 8 :=
    List.take_of_length_le (by simp [hb])
  simp only [siv128_getword, Nat.mul_zero, List.drop_zero, Nat.mul_one, h1, h2]
  ring

theorem siv128_getword_lt (b : List Nat) (hb : ∀ x ∈ b, x < 256) (i : Nat) :
    siv128_getword b i < 2 ^ 64 := by
  have hlen : ((b.drop (8 * i)).take 8).length ≤ 8 := by
    simp [List.length_take]
  have h := beBytesToNat_lt ((b.drop (8 * i)).take 8) fun x hx =>
    hb x (List.drop_subset _ _ (List.take_subset _ _ hx))
  calc siv128_getword b i < 2 ^ (8 * ((b.drop (8 * i)).take 8).length) := h
    _ ≤ 2 ^ 64 := Nat.pow_le_pow_right (by omega) (by omega)

theorem div_two_pow_63_eq_toNat (x : Nat) (hx : x < 2 ^ 64) :
    x / 2 ^ 63 = (x.testBit 63).toNat := by
  have h2 : x / 2 ^ 63 < 2 := by
    rw [Nat.div_lt_iff_lt_mul (Nat.two_pow_pos 63)]
    calc x < 2 ^ 64 := hx
      _ = 2 * 2 ^ 63 := by rw [← Nat.pow_succ']
  rw [Nat.testBit_to_div_mod]
  interval_cases h : x / 2 ^ 63 <;> simp

/-- The value of `siv128_dbl` on any well-formed block, as a big-endian
128-bit integer: shift left by one, truncate, and XOR the top-bit mask. -/
theorem siv128_dbl_beVal (b : List Nat) (hlen : b.length = 16)
    (hb : ∀ x ∈ b, x < 256) :
    beBytesToNat (siv128_dbl b)
      = ((beBytesToNat b * 2) % 2 ^ 128) ^^^
          (if (beBytesToNat b).testBit 127 then 0x87 else 0) := by
  have hH : siv128_getword b 0 < 2 ^ 64 := siv128_getword_lt b hb 0
  have hL : siv128_getword b 1 < 2 ^ 64 := siv128_getword_lt b hb 1
  set H := siv128_getword b 0 with hHdef
  set L := siv128_getword b 1 with hLdef
  have hB : beBytesToNat b = 2 ^ 64 * H + L := block_words b hlen
  -- bit 127 of the block is bit 63 of the high word
  have hbit : (beBytesToNat b).testBit 127 = H.testBit 63 := by
    rw [hB, Nat.testBit_mul_pow_two_add H hL]
    norm_num
  -- the two carries, as `Bool.toNat`
  have hcarryH : (H &&& 1 <<< 63) >>> 63 = (H.testBit 63).toNat := by
    have h63 : (1 : Nat) <<< 63 = 2 ^ 63 := by
      rw [Nat.shiftLeft_eq]; ring
    rw [h63, Nat.and_two_pow, Nat.shiftRight_eq_div_pow,
      Nat.mul_div_cancel _ (Nat.two_pow_pos 63)]
  have hcarryL : (L &&& 1 <<< 63) >>> 63 = (L.testBit 63).toNat := by
    have h63 : (1 : Nat) <<< 63 = 2 ^ 63 := by
      rw [Nat.shiftLeft_eq]; ring
    rw [h63, Nat.and_two_pow, Nat.shiftRight_eq_div_pow,
      Nat.mul_div_cancel _ (Nat.two_pow_pos 63)]
  -- the low mask is the conditional constant
  have hmask : ((2 ^ 64 - (H &&& 1 <<< 63) >>> 63) % 2 ^ 64) &&& 0x87
      = (if H.testBit 63 then 0x87 else 0) := by
    rw [hcarryH]
    cases H.testBit 63 <;> decide
  -- word shifts as arithmetic
  have hshift : ∀ x : Nat, (x <<< 1) % 2 ^ 64 = x % 2 ^ 63 * 2 := by
    intro x
    rw [Nat.shiftLeft_eq, Nat.pow_one]
    have : (2 : Nat) ^ 64 = 2 ^ 63 * 2 := by rw [← Nat.pow_succ]
    rw [this, Nat.mul_mod_mul_right]
  -- the high word recombines into an addition
  have hhigh : ((H <<< 1) % 2 ^ 64) ||| (L &&& 1 <<< 63) >>> 63
      = 2 * (H % 2 ^ 63) + (L.testBit 63).toNat := by
    rw [hshift, hcarryL, Nat.mul_comm (H % 2 ^ 63) 2]
    have h2 : 2 * (H % 2 ^ 63) = 2 ^ 1 * (H % 2 ^ 63) := by norm_num
    rw [h2, ← Nat.mul_add_lt_is_or (by cases L.testBit 63 <;> simp) (H % 2 ^ 63)]
  -- assemble the left-hand side
  unfold siv128_dbl
  rw [← hHdef, ← hLdef, beBytesToNat_append, length_natToBeBytes,
    beBytesToNat_natToBeBytes, beBytesToNat_natToBeBytes, hhigh, hmask]
  have hmodH : H % 2 ^ 63 < 2 ^ 63 := Nat.mod_lt _ (Nat.two_pow_pos 63)
  have hmodL : L % 2 ^ 63 < 2 ^ 63 := Nat.mod_lt _ (Nat.two_pow_pos 63)
  have hhigh_lt : 2 * (H % 2 ^ 63) + (L.testBit 63).toNat < 2 ^ 64 := by
    have : (L.testBit 63).toNat ≤ 1 := by cases L.testBit 63 <;> simp
    have h64 : (2 : Nat) ^ 64 = 2 * 2 ^ 63 := by rw [← Nat.pow_succ']
    omega
  have hlow_lt : (L <<< 1) % 2 ^ 64 ^^^ (if H.testBit 63 then 0x87 else 0)
      < 2 ^ 64 := by
    apply Nat.xor_lt_two_pow (Nat.mod_lt _ (Nat.two_pow_pos 64))
    cases H.testBit 63 <;> norm_num
  rw [Nat.mod_eq_of_lt hhigh_lt, Nat.mod_eq_of_lt hlow_lt]
  -- assemble the right-hand side
  have hq : L / 2 ^ 63 = (L.testBit 63).toNat := div_two_pow_63_eq_toNat L hL
  have hsplitL : L * 2 = 2 ^ 64 * (L.testBit 63).toNat + L % 2 ^ 63 * 2 := by
    have := Nat.div_add_mod L (2 ^ 63)
    have h64 : (2 : Nat) ^ 64 = 2 ^ 63 * 2 := by rw [← Nat.pow_succ]
    calc L * 2 = (2 ^ 63 * (L / 2 ^ 63) + L % 2 ^ 63) * 2 := by rw [this]
      _ = 2 ^ 63 * 2 * (L / 2 ^ 63) + L % 2 ^ 63 * 2 := by ring
      _ = 2 ^ 64 * (L.testBit 63).toNat + L % 2 ^ 63 * 2 := by
          rw [← h64, hq]
  have hmul : beBytesToNat b * 2
      = 2 ^ 64 * (2 * H + (L.testBit 63).toNat) + L % 2 ^ 63 * 2 := by
    rw [hB]
    calc (2 ^ 64 * H + L) * 2 = 2 ^ 64 * (2 * H) + L * 2 := by ring
      _ = 2 ^ 64 * (2 * H) + (2 ^ 64 * (L.testBit 63).toNat + L % 2 ^ 63 * 2) := by
          rw [hsplitL]
      _ = 2 ^ 64 * (2 * H + (L.testBit 63).toNat) + L % 2 ^ 63 * 2 := by ring
  have hr : L % 2 ^ 63 * 2 < 2 ^ 64 := by
    have h64 : (2 : Nat) ^ 64 = 2 ^ 63 * 2 := by rw [← Nat.pow_succ]
    omega
  have hmod128 : beBytesToNat b * 2 % 2 ^ 128
      = 2 ^ 64 * ((2 * H + (L.testBit 63).toNat) % 2 ^ 64) + L % 2 ^ 63 * 2 := by
    rw [hmul]
    have h128 : (2 : Nat) ^ 128 = 2 ^ 64 * 2 ^ 64 := by rw [← Nat.pow_add]
    set a := 2 * H + (L.testBit 63).toNat with ha
    rw [h128, Nat.mod_mul, Nat.mul_add_mod,
      Nat.mul_add_div (Nat.two_pow_pos 64), Nat.div_eq_of_lt hr,
      Nat.mod_eq_of_lt hr, Nat.add_zero]
    ring
  have hA : (2 * H + (L.testBit 63).toNat) % 2 ^ 64
      = 2 * (H % 2 ^ 63) + (L.testBit 63).toNat := by
    have h2H : 2 * H % 2 ^ 64 = H % 2 ^ 63 * 2 := by
      have h64 : (2 : Nat) ^ 64 = 2 ^ 63 * 2 := by rw [← Nat.pow_succ]
      rw [Nat.mul_comm 2 H, h64, Nat.mul_mod_mul_right]
    rw [Nat.add_mod, h2H]
    have hc : (L.testBit 63).toNat % 2 ^ 64 = (L.testBit 63).toNat := by
      apply Nat.mod_eq_of_lt
      cases L.testBit 63 <;> norm_num
    rw [hc, Nat.mul_comm (H % 2 ^ 63) 2, Nat.mod_eq_of_lt hhigh_lt]
  rw [hbit, hmod128, hA, mul_pow_add_xor _ _ _ _ hr (by cases H.testBit 63 <;> norm_num),
    hshift]
  ring

/-! ## SIV context lemmas -/

theorem lor_eq_zero_left {a b : Nat} (h : a ||| b = 0) : a = 0 := by
  apply Nat.eq_of_testBit_eq
  intro i
  have hbit := congrArg (fun x => x.testBit i) h
  simp only [Nat.testBit_or, Nat.zero_testBit, Bool.or_eq_false_iff] at hbit
  simp [hbit.1]

theorem lor_eq_zero_right {a b : Nat} (h : a ||| b = 0) : b = 0 :=
  lor_eq_zero_left (Nat.lor_comm b a ▸ h)

theorem zipWith_xor_eq_of_zero (t tag : List Nat) (hlen : t.length = tag.length)
    (h : ∀ x ∈ List.zipWith Nat.xor t tag, x = 0) : t = tag := by
  induction t generalizing tag with
  | nil => cases tag with
    | nil => rfl
    | cons b bs => simp at hlen
  | cons a as ih =>
      cases tag with
      | nil => simp at hlen
      | cons b bs =>
          simp only [List.zipWith_cons_cons, List.mem_cons] at h
          have hab : Nat.xor a b = 0 := h _ (Or.inl rfl)
          have : a = b := Nat.xor_eq_zero.1 hab
          subst this
          exact congrArg _ (ih bs (by simpa using hlen) fun x hx => h x (Or.inr hx))

theorem tag_mismatch_word_or (t tag : List Nat) (ht : t.length = 16)
    (htag : tag.length = 16) (hne : t ≠ tag) :
    siv128_getword (List.zipWith Nat.xor t tag) 0
      ||| siv128_getword (List.zipWith Nat.xor t tag) 1 ≠ 0 := by
  intro h0
  apply hne
  set t1 := List.zipWith Nat.xor t tag with ht1
  have hlen1 : t1.length = 16 := by simp [ht1, ht, htag]
  have hw0 : siv128_getword t1 0 = 0 := lor_eq_zero_left h0
  have hw1 : siv128_getword t1 1 = 0 := lor_eq_zero_right h0
  have hz0 : ∀ x ∈ (t1.drop 0).take 8, x = 0 :=
    (beBytesToNat_eq_zero _).1 hw0
  have hz1 : ∀ x ∈ (t1.drop 8).take 8, x = 0 :=
    (beBytesToNat_eq_zero _).1 hw1
  apply zipWith_xor_eq_of_zero t tag (by omega)
  intro x hx
  rw [← ht1] at hx
  rcases List.mem_append.1 ((List.take_append_drop 8 t1) ▸ hx) with hx8 | hx8
  · exact hz0 x (by simpa using hx8)
  · have hd : (t1.drop 8).take 8 = t1.drop 8 :=
      List.take_of_length_le (by simp [hlen1])
    exact hz1 x (by rw [hd]; exact hx8)

theorem s2v_some_length (cmac : List Nat → List Nat) (d inp q : List Nat)
    (h : (siv128_do_s2v_p cmac d inp).2 = some q) : q.length = 16 := by
  unfold siv128_do_s2v_p at h
  by_cases hlen : SIV_LEN ≤ inp.length
  · rw [if_pos hlen] at h
    simp only at h
    split at h
    · cases h; assumption
    · cases h
  · rw [if_neg hlen] at h
    simp only at h
    split at h
    · cases h; assumption
    · cases h

theorem s2v_isSome (cmac : List Nat → List Nat) (d inp : List Nat)
    (hc : ∀ m, (cmac m).length = 16) :
    ∃ q, (siv128_do_s2v_p cmac d inp).2 = some q := by
  unfold siv128_do_s2v_p
  split <;> simp [SIV_LEN, hc]

theorem aad_fields (cmac : List Nat → List Nat) (ctx : SIV128_CONTEXT)
    (a : List Nat) :
    (CRYPTO_siv128_aad cmac ctx a).1.tag = ctx.tag
    ∧ (CRYPTO_siv128_aad cmac ctx a).1.crypto_ok = ctx.crypto_ok
    ∧ (CRYPTO_siv128_aad cmac ctx a).1.final_ret = ctx.final_ret := by
  simp only [CRYPTO_siv128_aad]
  split <;> exact ⟨rfl, rfl, rfl⟩

theorem sivAadList_fields (cmac : List Nat → List Nat) (ctx : SIV128_CONTEXT)
    (aads : List (List Nat)) :
    (sivAadList cmac ctx aads).tag = ctx.tag
    ∧ (sivAadList cmac ctx aads).crypto_ok = ctx.crypto_ok
    ∧ (sivAadList cmac ctx aads).final_ret = ctx.final_ret := by
  induction aads generalizing ctx with
  | nil => exact ⟨rfl, rfl, rfl⟩
  | cons a rest ih =>
      have h1 := ih (CRYPTO_siv128_aad cmac ctx a).1
      have h2 := aad_fields cmac ctx a
      simp only [sivAadList]
      exact ⟨h1.1.trans h2.1, h1.2.1.trans h2.2.1, h1.2.2.trans h2.2.2⟩

theorem encrypt_exhausted (cmac : List Nat → List Nat)
    (ks : List Nat → Nat → List Nat) (ctx : SIV128_CONTEXT) (inp : List Nat)
    (h : ctx.crypto_ok = 0) :
    CRYPTO_siv128_encrypt cmac ks ctx inp = (ctx, [], 0) := by
  unfold CRYPTO_siv128_encrypt
  rw [if_pos h]

theorem decrypt_exhausted (cmac : List Nat → List Nat)
    (ks : List Nat → Nat → List Nat) (ctx : SIV128_CONTEXT) (inp : List Nat)
    (h : ctx.crypto_ok = 0) :
    CRYPTO_siv128_decrypt cmac ks ctx inp = (ctx, [], 0) := by
  unfold CRYPTO_siv128_decrypt
  rw [if_pos h]

theorem encrypt_crypto_ok (cmac : List Nat → List Nat)
    (ks : List Nat → Nat → List Nat) (ctx : SIV128_CONTEXT) (inp : List Nat)
    (h : ¬ ctx.crypto_ok = 0) :
    (CRYPTO_siv128_encrypt cmac ks ctx inp).1.crypto_ok = ctx.crypto_ok - 1 := by
  simp only [CRYPTO_siv128_encrypt]
  rw [if_neg h]
  split <;> rfl

theorem decrypt_crypto_ok (cmac : List Nat → List Nat)
    (ks : List Nat → Nat → List Nat) (ctx : SIV128_CONTEXT) (inp : List Nat)
    (h : ¬ ctx.crypto_ok = 0) :
    (CRYPTO_siv128_decrypt cmac ks ctx inp).1.crypto_ok = ctx.crypto_ok - 1 := by
  simp only [CRYPTO_siv128_decrypt]
  rw [if_neg h]
  split
  · rfl
  · split <;> rfl

/-! ## Claim theorems -/

/-- C2: in the final S2V step, if the input has at least 16 bytes the
accumulator `d` is unchanged and the output is the CMAC of the input
with its last 16 bytes XORed with `d` (the head fed unmodified); if the
input is shorter than 16 bytes, `d` is first doubled, and the output is
the CMAC of the padded block `M || 0x80 || 0...` XORed with the updated
`d`. -/
theorem claim_C2_s2v_final_step (cmac : List Nat → List Nat)
    (d inp : List Nat) (hc : ∀ m, (cmac m).length = 16) :
    (16 ≤ inp.length →
      siv128_do_s2v_p cmac d inp
        = (d, some (cmac (inp.take (inp.length - 16)
            ++ List.zipWith Nat.xor (inp.drop (inp.length - 16)) d))))
    ∧ (inp.length < 16 →
      siv128_do_s2v_p cmac d inp
        = (siv128_dbl d, some (cmac (List.zipWith Nat.xor
            (inp ++ 0x80 :: List.replicate (15 - inp.length) 0)
            (siv128_dbl d))))) := by
  have h15 : 16 - inp.length - 1 = 15 - inp.length := by omega
  constructor
  · intro h
    simp [siv128_do_s2v_p, siv128_xorblock, SIV_LEN, h, hc]
  · intro h
    simp [siv128_do_s2v_p, siv128_xorblock, SIV_LEN, Nat.not_le.2 h, hc, h15]

theorem claim_C2_s2v_final_step_witness :
    (∀ m, ((fun _ : List Nat => List.replicate 16 1) m).length = 16)
    ∧ ((16 ≤ [3, 1, 4, 1, 5].length →
        siv128_do_s2v_p (fun _ => List.replicate 16 1) (List.replicate 16 2)
            [3, 1, 4, 1, 5]
          = (List.replicate 16 2,
             some ((fun _ : List Nat => List.replicate 16 1)
               ([3, 1, 4, 1, 5].take ([3, 1, 4, 1, 5].length - 16)
                 ++ List.zipWith Nat.xor
                     ([3, 1, 4, 1, 5].drop ([3, 1, 4, 1, 5].length - 16))
                     (List.replicate 16 2)))))
      ∧ ([3, 1, 4, 1, 5].length < 16 →
        siv128_do_s2v_p (fun _ => List.replicate 16 1) (List.replicate 16 2)
            [3, 1, 4, 1, 5]
          = (siv128_dbl (List.replicate 16 2),
             some ((fun _ : List Nat => List.replicate 16 1)
               (List.zipWith Nat.xor
                 ([3, 1, 4, 1, 5] ++ 0x80 :: List.replicate
                     (15 - [3, 1, 4, 1, 5].length) 0)
                 (siv128_dbl (List.replicate 16 2))))))) :=
  ⟨fun _ => rfl,
    claim_C2_s2v_final_step (fun _ => List.replicate 16 1)
      (List.replicate 16 2) [3, 1, 4, 1, 5] (fun _ => rfl)⟩

/-- C3: `siv128_dbl` maps a 16-byte block, read as a big-endian 128-bit
integer, to its left shift by one truncated to 128 bits, XORed with 0x87
exactly when bit 127 was set; the zero block doubles to itself. -/
theorem claim_C3_siv128_dbl (b : List Nat) (hlen : b.length = 16)
    (hb : ∀ x ∈ b, x < 256) :
    beBytesToNat (siv128_dbl b)
      = ((beBytesToNat b <<< 1) % 2 ^ 128) ^^^
          (if (beBytesToNat b).testBit 127 then 0x87 else 0)
    ∧ siv128_dbl (List.replicate 16 0) = List.replicate 16 0 := by
  constructor
  · rw [Nat.shiftLeft_eq, Nat.pow_one]
    exact siv128_dbl_beVal b hlen hb
  · decide

theorem claim_C3_siv128_dbl_witness :
    ((0x80 :: List.replicate 15 0).length = 16
      ∧ (∀ x ∈ 0x80 :: List.replicate 15 0, x < 256))
    ∧ (beBytesToNat (siv128_dbl (0x80 :: List.replicate 15 0))
        = ((beBytesToNat (0x80 :: List.replicate 15 0) <<< 1) % 2 ^ 128) ^^^
            (if (beBytesToNat (0x80 :: List.replicate 15 0)).testBit 127
             then 0x87 else 0)
      ∧ siv128_dbl (List.replicate 16 0) = List.replicate 16 0) :=
  ⟨⟨by decide, by decide⟩,
    claim_C3_siv128_dbl (0x80 :: List.replicate 15 0) (by decide) (by decide)⟩

/-- C4: the one-shot budget: starting from a context whose budget is 1
(as set by init), after any first encrypt-or-decrypt call every further
encrypt or decrypt returns 0 and leaves the context unchanged. -/
theorem claim_C4_one_shot (cmac : List Nat → List Nat)
    (ks : List Nat → Nat → List Nat) (o1 o2 : Bool) (ctx : SIV128_CONTEXT)
    (inp1 inp2 : List Nat) (h : ctx.crypto_ok = 1) :
    sivCryptoOp o2 cmac ks (sivCryptoOp o1 cmac ks ctx inp1).1 inp2
      = ((sivCryptoOp o1 cmac ks ctx inp1).1, [], 0) := by
  have h1 : ¬ ctx.crypto_ok = 0 := by rw [h]; decide
  have h0 : (sivCryptoOp o1 cmac ks ctx inp1).1.crypto_ok = 0 := by
    cases o1
    · simp only [sivCryptoOp, if_neg, Bool.false_eq_true, ite_false]
      rw [decrypt_crypto_ok cmac ks ctx inp1 h1, h]
      decide
    · simp only [sivCryptoOp, ite_true]
      rw [encrypt_crypto_ok cmac ks ctx inp1 h1, h]
      decide
  cases o2
  · simp only [sivCryptoOp, Bool.false_eq_true, ite_false]
    exact decrypt_exhausted cmac ks _ inp2 h0
  · simp only [sivCryptoOp, ite_true]
    exact encrypt_exhausted cmac ks _ inp2 h0

theorem claim_C4_one_shot_witness :
    (CRYPTO_siv128_init (fun _ => List.replicate 16 1)).crypto_ok = 1
    ∧ sivCryptoOp false (fun _ => List.replicate 16 1)
        (fun _ n => List.replicate n 0)
        (sivCryptoOp true (fun _ => List.replicate 16 1)
          (fun _ n => List.replicate n 0)
          (CRYPTO_siv128_init (fun _ => List.replicate 16 1)) [7]).1 [7]
      = ((sivCryptoOp true (fun _ => List.replicate 16 1)
          (fun _ n => List.replicate n 0)
          (CRYPTO_siv128_init (fun _ => List.replicate 16 1)) [7]).1, [], 0) :=
  ⟨rfl,
    claim_C4_one_shot (fun _ => List.replicate 16 1)
      (fun _ n => List.replicate n 0) true false
      (CRYPTO_siv128_init (fun _ => List.replicate 16 1)) [7] [7] rfl⟩

/-- C5 (amended): `CRYPTO_siv128_aad` performs no budget check: whatever
the state of `crypto_ok` and `final_ret` — in particular after the one
crypto operation has run — an `aad` call still succeeds (returns 1) and
absorbs the segment into the accumulator `d`. -/
theorem claim_C5_aad_no_budget_check (cmac : List Nat → List Nat)
    (ctx : SIV128_CONTEXT) (a : List Nat) (hc : (cmac a).length = 16) :
    (CRYPTO_siv128_aad cmac ctx a).2 = 1
    ∧ (CRYPTO_siv128_aad cmac ctx a).1
        = { ctx with d := siv128_xorblock (siv128_dbl ctx.d) (cmac a) } := by
  simp [CRYPTO_siv128_aad, hc, SIV_LEN]

theorem claim_C5_aad_no_budget_check_witness :
    ((fun _ : List Nat => List.replicate 16 1) []).length = 16
    ∧ ((CRYPTO_siv128_aad (fun _ => List.replicate 16 1)
          { d := List.replicate 16 2, tag := List.replicate 16 0,
            final_ret := 0, crypto_ok := 0 } []).2 = 1
      ∧ (CRYPTO_siv128_aad (fun _ => List.replicate 16 1)
          { d := List.replicate 16 2, tag := List.replicate 16 0,
            final_ret := 0, crypto_ok := 0 } []).1
        = { d := siv128_xorblock (siv128_dbl (List.replicate 16 2))
                ((fun _ : List Nat => List.replicate 16 1) []),
            tag := List.replicate 16 0, final_ret := 0, crypto_ok := 0 }) :=
  ⟨rfl,
    claim_C5_aad_no_budget_check (fun _ => List.replicate 16 1)
      { d := List.replicate 16 2, tag := List.replicate 16 0,
        final_ret := 0, crypto_ok := 0 } [] rfl⟩

/-- C5 (counterexample to the claim as stated): on a context on which
encrypt has already run, `CRYPTO_siv128_aad` does not fail: it returns 1
and changes the accumulator `d`. -/
theorem claim_C5_counterexample :
    (CRYPTO_siv128_aad (fun _ => List.replicate 16 1)
        (CRYPTO_siv128_encrypt (fun _ => List.replicate 16 1)
          (fun _ n => List.replicate n 0)
          (CRYPTO_siv128_init (fun _ => List.replicate 16 1)) []).1 []).2 = 1
    ∧ (CRYPTO_siv128_aad (fun _ => List.replicate 16 1)
        (CRYPTO_siv128_encrypt (fun _ => List.replicate 16 1)
          (fun _ n => List.replicate n 0)
          (CRYPTO_siv128_init (fun _ => List.replicate 16 1)) []).1 []).1.d
      ≠ (CRYPTO_siv128_encrypt (fun _ => List.replicate 16 1)
          (fun _ n => List.replicate n 0)
          (CRYPTO_siv128_init (fun _ => List.replicate 16 1)) []).1.d := by
  decide

/-- C6: when the S2V value recomputed over the recovered candidate
plaintext differs from the stored tag, decrypt returns 0, the output
buffer is scrubbed to zero bytes before return, and `final_ret` is left
unchanged (undecided when it was undecided). -/
theorem claim_C6_decrypt_mismatch (cmac : List Nat → List Nat)
    (ks : List Nat → Nat → List Nat) (ctx : SIV128_CONTEXT)
    (inp t : List Nat)
    (hok : ¬ ctx.crypto_ok = 0)
    (htag : ctx.tag.length = 16)
    (ht : (siv128_do_s2v_p cmac ctx.d
            (siv128_do_encrypt ks (siv128_clear_ctr_bits ctx.tag) inp)).2
          = some t)
    (hne : t ≠ ctx.tag) :
    CRYPTO_siv128_decrypt cmac ks ctx inp
      = ({ ctx with
            crypto_ok := ctx.crypto_ok - 1,
            d := (siv128_do_s2v_p cmac ctx.d
              (siv128_do_encrypt ks (siv128_clear_ctr_bits ctx.tag) inp)).1 },
         List.replicate inp.length 0, 0)
    ∧ (CRYPTO_siv128_decrypt cmac ks ctx inp).1.final_ret = ctx.final_ret := by
  have htl : t.length = 16 := s2v_some_length cmac _ _ t ht
  have hmis := tag_mismatch_word_or t ctx.tag htl htag hne
  have hd : CRYPTO_siv128_decrypt cmac ks ctx inp
      = ({ ctx with
            crypto_ok := ctx.crypto_ok - 1,
            d := (siv128_do_s2v_p cmac ctx.d
              (siv128_do_encrypt ks (siv128_clear_ctr_bits ctx.tag) inp)).1 },
         List.replicate inp.length 0, 0) := by
    simp only [CRYPTO_siv128_decrypt]
    rw [if_neg hok]
    simp only [ht]
    rw [if_pos hmis]
  exact ⟨hd, by rw [hd]⟩

theorem claim_C6_decrypt_mismatch_witness :
    (¬ (1 : Int) = 0
      ∧ (List.replicate 16 0).length = 16
      ∧ (siv128_do_s2v_p (fun _ => List.replicate 16 1)
            (List.replicate 16 0)
            (siv128_do_encrypt (fun _ n => List.replicate n 0)
              (siv128_clear_ctr_bits (List.replicate 16 0)) [])).2
          = some (List.replicate 16 1)
      ∧ List.replicate 16 1 ≠ List.replicate 16 (0 : Nat))
    ∧ (CRYPTO_siv128_decrypt (fun _ => List.replicate 16 1)
          (fun _ n => List.replicate n 0)
          { d := List.replicate 16 0, tag := List.replicate 16 0,
            final_ret := -1, crypto_ok := 1 } []
        = ({ d := (siv128_do_s2v_p (fun _ => List.replicate 16 1)
                (List.replicate 16 0)
                (siv128_do_encrypt (fun _ n => List.replicate n 0)
                  (siv128_clear_ctr_bits (List.replicate 16 0)) [])).1,
             tag := List.replicate 16 0, final_ret := -1, crypto_ok := 0 },
           List.replicate ([] : List Nat).length 0, 0)
      ∧ (CRYPTO_siv128_decrypt (fun _ => List.replicate 16 1)
          (fun _ n => List.replicate n 0)
          { d := List.replicate 16 0, tag := List.replicate 16 0,
            final_ret := -1, crypto_ok := 1 } []).1.final_ret = -1) := by
  refine ⟨⟨by decide, by decide, by decide, by decide⟩, ?_⟩
  exact claim_C6_decrypt_mismatch (fun _ => List.replicate 16 1)
    (fun _ n => List.replicate n 0)
    { d := List.replicate 16 0, tag := List.replicate 16 0,
      final_ret := -1, crypto_ok := 1 } [] (List.replicate 16 1)
    (by decide) (by decide) (by decide) (by decide)

/-- C1: SIV round trip.  For any CMAC and CTR keystream primitives
(derived from the two halves of an even-length key; the MAC always
returns 16 bytes and the keystream has the requested length), any
sequence of AAD segments and any plaintext `p`: running init, the AAD
calls and encrypt yields a tag retrievable by `get_tag`; carrying that
tag via `set_tag` to a second context initialised with the same key and
fed the same AAD sequence, decrypt on the ciphertext succeeds — it
returns the length, sets `final_ret` to success and outputs exactly
`p`. -/
theorem claim_C1_round_trip (cmac : List Nat → List Nat)
    (ks : List Nat → Nat → List Nat)
    (hc : ∀ m, (cmac m).length = 16)
    (hk : ∀ iv n, (ks iv n).length = n)
    (aads : List (List Nat)) (p : List Nat) :
    ∃ t,
      CRYPTO_siv128_get_tag
        (CRYPTO_siv128_encrypt cmac ks
          (sivAadList cmac (CRYPTO_siv128_init cmac) aads) p).1 16 = some t
      ∧ CRYPTO_siv128_decrypt cmac ks
          (CRYPTO_siv128_set_tag
            (sivAadList cmac (CRYPTO_siv128_init cmac) aads) t).1
          (CRYPTO_siv128_encrypt cmac ks
            (sivAadList cmac (CRYPTO_siv128_init cmac) aads) p).2.1
        = ((CRYPTO_siv128_decrypt cmac ks
              (CRYPTO_siv128_set_tag
                (sivAadList cmac (CRYPTO_siv128_init cmac) aads) t).1
              (CRYPTO_siv128_encrypt cmac ks
                (sivAadList cmac (CRYPTO_siv128_init cmac) aads) p).2.1).1,
            p, Int.ofNat p.length)
      ∧ (CRYPTO_siv128_decrypt cmac ks
            (CRYPTO_siv128_set_tag
              (sivAadList cmac (CRYPTO_siv128_init cmac) aads) t).1
            (CRYPTO_siv128_encrypt cmac ks
              (sivAadList cmac (CRYPTO_siv128_init cmac) aads) p).2.1).1.final_ret
          = 0 := by
  set ctxA := sivAadList cmac (CRYPTO_siv128_init cmac) aads with hctxA
  have hok : ctxA.crypto_ok = 1 := (sivAadList_fields cmac _ aads).2.1
  have hok' : ¬ ctxA.crypto_ok = 0 := by rw [hok]; decide
  obtain ⟨q, hq⟩ := s2v_isSome cmac ctxA.d p hc
  have hqlen : q.length = 16 := s2v_some_length cmac ctxA.d p q hq
  -- the encrypt call, fully evaluated
  have he : CRYPTO_siv128_encrypt cmac ks ctxA p
      = ({ ctxA with
            crypto_ok := ctxA.crypto_ok - 1,
            d := (siv128_do_s2v_p cmac ctxA.d p).1,
            tag := q, final_ret := 0 },
         siv128_do_encrypt ks (siv128_clear_ctr_bits q) p,
         Int.ofNat p.length) := by
    simp only [CRYPTO_siv128_encrypt]
    rw [if_neg hok']
    simp only [hq]
  rw [he]
  refine ⟨q, ?_, ?_⟩
  · simp [CRYPTO_siv128_get_tag, SIV_LEN]
  -- the decrypting context
  have hset : (CRYPTO_siv128_set_tag ctxA q).1 = { ctxA with tag := q } := by
    simp [CRYPTO_siv128_set_tag, SIV_LEN, hqlen]
  rw [hset]
  set c := siv128_do_encrypt ks (siv128_clear_ctr_bits q) p with hcdef
  have hclen : c.length = p.length := by
    simp [hcdef, siv128_do_encrypt, hk]
  -- the CTR layer undoes itself
  have hout : siv128_do_encrypt ks (siv128_clear_ctr_bits q) c = p := by
    rw [hcdef]
    simp only [siv128_do_encrypt]
    have hlen2 : (List.zipWith Nat.xor p
        (ks (siv128_clear_ctr_bits q) p.length)).length = p.length := by
      simp [hk]
    rw [hlen2]
    exact zipWith_xor_cancel p _ (by rw [hk])
  -- the decrypt call, fully evaluated
  have hdctx : ({ ctxA with tag := q } : SIV128_CONTEXT).crypto_ok = 1 := hok
  have hdctx' : ¬ ({ ctxA with tag := q } : SIV128_CONTEXT).crypto_ok = 0 := by
    rw [hdctx]; decide
  have hzero : List.zipWith Nat.xor q q = List.replicate 16 0 := by
    rw [zipWith_xor_self, hqlen]
  have hnomis : ¬ (siv128_getword (List.zipWith Nat.xor q q) 0
      ||| siv128_getword (List.zipWith Nat.xor q q) 1 ≠ 0) := by
    rw [hzero]
    decide
  have hd : CRYPTO_siv128_decrypt cmac ks { ctxA with tag := q } c
      = ({ ctxA with
            crypto_ok := ctxA.crypto_ok - 1,
            tag := q,
            d := (siv128_do_s2v_p cmac ctxA.d p).1,
            final_ret := 0 },
         p, Int.ofNat p.length) := by
    simp only [CRYPTO_siv128_decrypt]
    rw [if_neg hdctx']
    simp only [hout, hq]
    rw [if_neg hnomis]
    rw [hclen]
  rw [hd]
  exact ⟨rfl, rfl⟩

theorem claim_C1_round_trip_witness :
    ((∀ m, ((fun _ : List Nat => List.replicate 16 1) m).length = 16)
      ∧ (∀ iv n, ((fun _ : List Nat => fun n => List.replicate n 3) iv n).length = n))
    ∧ ∃ t,
      CRYPTO_siv128_get_tag
        (CRYPTO_siv128_encrypt (fun _ => List.replicate 16 1)
          (fun _ n => List.replicate n 3)
          (sivAadList (fun _ => List.replicate 16 1)
            (CRYPTO_siv128_init (fun _ => List.replicate 16 1)) [[9, 9]])
          [5, 6, 7]).1 16 = some t
      ∧ CRYPTO_siv128_decrypt (fun _ => List.replicate 16 1)
          (fun _ n => List.replicate n 3)
          (CRYPTO_siv128_set_tag
            (sivAadList (fun _ => List.replicate 16 1)
              (CRYPTO_siv128_init (fun _ => List.replicate 16 1)) [[9, 9]]) t).1
          (CRYPTO_siv128_encrypt (fun _ => List.replicate 16 1)
            (fun _ n => List.replicate n 3)
            (sivAadList (fun _ => List.replicate 16 1)
              (CRYPTO_siv128_init (fun _ => List.replicate 16 1)) [[9, 9]])
            [5, 6, 7]).2.1
        = ((CRYPTO_siv128_decrypt (fun _ => List.replicate 16 1)
              (fun _ n => List.replicate n 3)
              (CRYPTO_siv128_set_tag
                (sivAadList (fun _ => List.replicate 16 1)
                  (CRYPTO_siv128_init (fun _ => List.replicate 16 1)) [[9, 9]]) t).1
              (CRYPTO_siv128_encrypt (fun _ => List.replicate 16 1)
                (fun _ n => List.replicate n 3)
                (sivAadList (fun _ => List.replicate 16 1)
                  (CRYPTO_siv128_init (fun _ => List.replicate 16 1)) [[9, 9]])
                [5, 6, 7]).2.1).1,
            [5, 6, 7], Int.ofNat [5, 6, 7].length)
      ∧ (CRYPTO_siv128_decrypt (fun _ => List.replicate 16 1)
            (fun _ n => List.replicate n 3)
            (CRYPTO_siv128_set_tag
              (sivAadList (fun _ => List.replicate 16 1)
                (CRYPTO_siv128_init (fun _ => List.replicate 16 1)) [[9, 9]]) t).1
            (CRYPTO_siv128_encrypt (fun _ => List.replicate 16 1)
              (fun _ n => List.replicate n 3)
              (sivAadList (fun _ => List.replicate 16 1)
                (CRYPTO_siv128_init (fun _ => List.replicate 16 1)) [[9, 9]])
              [5, 6, 7]).2.1).1.final_ret = 0 :=
  ⟨⟨fun _ => rfl, fun _ n => List.length_replicate n 3⟩,
    claim_C1_round_trip (fun _ => List.replicate 16 1)
      (fun _ n => List.replicate n 3) (fun _ => rfl)
      (fun _ n => List.length_replicate n 3) [[9, 9]] [5, 6, 7]⟩

/-! ## Encoder lemmas -/

theorem encSizeLoop_zero (fuel cnt : Nat) : encSizeLoop fuel 0 cnt = cnt := by
  cases fuel <;> simp [encSizeLoop]

theorem encSizeLoop_le (fuel : Nat) : ∀ bits cnt : Nat,
    encSizeLoop fuel bits cnt ≤ cnt + fuel := by
  induction fuel with
  | zero => intro bits cnt; simp [encSizeLoop]
  | succ fuel ih =>
      intro bits cnt
      simp only [encSizeLoop]
      split
      · exact le_trans (ih _ _) (by omega)
      · omega

theorem get_encode_size_le (bits : Nat) : get_encode_size bits ≤ 8 := by
  simp only [get_encode_size]
  have := encSizeLoop_le 8 bits 0
  split <;> omega

theorem minBytesF_succ (f x : Nat) :
    minBytesF (f + 1) x = if x < 256 then 1 else minBytesF f (x / 256) + 1 :=
  rfl

theorem minBytesF_pos (f x : Nat) : 1 ≤ minBytesF f x := by
  cases f with
  | zero => simp [minBytesF]
  | succ f => simp only [minBytesF]; split <;> omega

theorem minBytesF_congr (f : Nat) : ∀ g x : Nat, x < 256 ^ f → x < 256 ^ g →
    minBytesF f x = minBytesF g x := by
  induction f with
  | zero =>
      intro g x hf hg
      have hx : x = 0 := by simpa using hf
      subst hx
      cases g <;> simp [minBytesF]
  | succ f ih =>
      intro g x hf hg
      cases g with
      | zero =>
          have hx : x = 0 := by simpa using hg
          subst hx
          simp [minBytesF]
      | succ g =>
          by_cases hx : x < 256
          · simp [minBytesF, hx]
          · simp only [minBytesF, if_neg hx]
            have hf' : x / 256 < 256 ^ f := by
              rw [Nat.div_lt_iff_lt_mul (by norm_num)]
              calc x < 256 ^ (f + 1) := hf
                _ = 256 ^ f * 256 := pow_succ 256 f
            have hg' : x / 256 < 256 ^ g := by
              rw [Nat.div_lt_iff_lt_mul (by norm_num)]
              calc x < 256 ^ (g + 1) := hg
                _ = 256 ^ g * 256 := pow_succ 256 g
            rw [ih g (x / 256) hf' hg']

theorem encSizeLoop_eq_minBytesF (f : Nat) : ∀ cnt bits : Nat,
    f + cnt = 8 → bits ≠ 0 → bits < 256 ^ f →
    encSizeLoop f bits cnt = cnt + minBytesF f bits := by
  induction f with
  | zero =>
      intro cnt bits hinv hb hlt
      simp only [Nat.pow_zero, Nat.lt_one_iff] at hlt
      exact absurd hlt hb
  | succ f ih =>
      intro cnt bits hinv hb hlt
      have hcnt : cnt < 8 := by omega
      simp only [encSizeLoop, if_pos (And.intro hb hcnt)]
      have hdiv : bits >>> 8 = bits / 256 := by
        rw [Nat.shiftRight_eq_div_pow]
      by_cases hx : bits < 256
      · have h0 : bits >>> 8 = 0 := by
          rw [hdiv]
          exact Nat.div_eq_of_lt hx
        rw [h0, encSizeLoop_zero]
        simp [minBytesF, hx]
      · have hb' : bits / 256 ≠ 0 := by
          have h256 : 256 ≤ bits := le_of_not_lt hx
          have := Nat.one_le_div_iff (show 0 < 256 by norm_num) |>.2 h256
          omega
        have hlt' : bits / 256 < 256 ^ f := by
          rw [Nat.div_lt_iff_lt_mul (by norm_num)]
          calc bits < 256 ^ (f + 1) := hlt
            _ = 256 ^ f * 256 := pow_succ 256 f
        rw [hdiv, ih (cnt + 1) (bits / 256) (by omega) hb' hlt']
        simp only [minBytesF, if_neg hx]
        omega

theorem get_encode_size_eq_minBytes (bits : Nat) (h : bits < 2 ^ 64) :
    get_encode_size bits = minBytes bits := by
  by_cases hb : bits = 0
  · subst hb; decide
  · have h256 : bits < 256 ^ 8 := by
      calc bits < 2 ^ 64 := h
        _ = 256 ^ 8 := by norm_num
    unfold get_encode_size
    rw [encSizeLoop_eq_minBytesF 8 0 bits (by omega) hb h256]
    have hpos := minBytesF_pos 8 bits
    rw [if_neg (by omega), Nat.zero_add]
    exact minBytesF_congr 8 bits bits h256
      (Nat.lt_pow_self (by norm_num) bits)

theorem minBytesF_of_bounds (k : Nat) : ∀ x f : Nat,
    256 ^ k ≤ x → x < 256 ^ (k + 1) → x < 256 ^ f →
    minBytesF f x = k + 1 := by
  induction k with
  | zero =>
      intro x f h1 h2 hf
      rw [minBytesF_congr f 1 x hf (by simpa using h2)]
      simp [minBytesF, show x < 256 by simpa using h2]
  | succ k ih =>
      intro x f h1 h2 hf
      rw [minBytesF_congr f (k + 2) x hf h2]
      have hge : ¬ x < 256 := by
        have h256 : (256 : Nat) ≤ 256 ^ (k + 1) := Nat.le_self_pow (by omega) 256
        omega
      rw [minBytesF_succ, if_neg hge]
      have h1' : 256 ^ k ≤ x / 256 := by
        rw [Nat.le_div_iff_mul_le (by norm_num)]
        calc 256 ^ k * 256 = 256 ^ (k + 1) := (pow_succ 256 k).symm
          _ ≤ x := h1
      have h2' : x / 256 < 256 ^ (k + 1) := by
        rw [Nat.div_lt_iff_lt_mul (by norm_num)]
        calc x < 256 ^ (k + 2) := h2
          _ = 256 ^ (k + 1) * 256 := pow_succ 256 (k + 1)
      rw [ih (x / 256) (k + 1) h1' h2' h2']

theorem minBytes_of_bounds (k x : Nat) (h1 : 256 ^ k ≤ x)
    (h2 : x < 256 ^ (k + 1)) : minBytes x = k + 1 :=
  minBytesF_of_bounds k x x h1 h2 (Nat.lt_pow_self (by norm_num) x)

theorem natToBeBytes_eq_map (n : Nat) : ∀ x : Nat,
    natToBeBytes n x
      = (List.range n).map fun i => (x >>> (8 * (n - 1 - i))) &&& 0xFF := by
  induction n with
  | zero => intro x; simp [natToBeBytes]
  | succ n ih =>
      intro x
      rw [List.range_succ_eq_map]
      simp only [natToBeBytes, List.map_cons, List.map_map]
      have hmask : ∀ y : Nat, y &&& 0xFF = y % 256 := by
        intro y
        have h := Nat.and_pow_two_sub_one_eq_mod y 8
        norm_num at h
        exact h
      have htail : ((fun i => (x >>> (8 * (n + 1 - 1 - i))) &&& 0xFF) ∘ Nat.succ)
          = fun i => (x >>> (8 * (n - 1 - i))) &&& 0xFF := by
        funext i
        simp only [Function.comp]
        congr 3
        omega
      rw [htail, ← ih x]
      congr 1
      rw [Nat.shiftRight_eq_div_pow, hmask]
      norm_num

theorem right_encode_isSome (bits : Nat) :
    ∃ enc, right_encode bits = some enc := by
  simp only [right_encode]
  rw [if_neg (by have := get_encode_size_le bits; omega)]
  exact ⟨_, rfl⟩

/-- C7: `kmac_final` absorbs `right_encode(0)` in XOF mode and
`right_encode(out_len*8)` otherwise, squeezes exactly `out_len` bytes,
reports `out_len` bytes written, and is entirely independent of the
`outsize` argument, which is never consulted. -/
theorem claim_C7_kmac_final (xof : List Nat → Nat → List Nat)
    (kctx : kmac_data_st) (outsize : Nat)
    (hx : ∀ m n, (xof m n).length = n) :
    ∃ enc,
      right_encode (if kctx.xof_mode ≠ 0 then 0 else kctx.out_len * 8) = some enc
      ∧ kmac_final xof kctx outsize
          = some (xof (kctx.absorbed ++ enc) kctx.out_len, kctx.out_len)
      ∧ (xof (kctx.absorbed ++ enc) kctx.out_len).length = kctx.out_len
      ∧ ∀ other : Nat, kmac_final xof kctx other = kmac_final xof kctx outsize := by
  obtain ⟨enc, henc⟩ := right_encode_isSome
    (if kctx.xof_mode ≠ 0 then 0 else kctx.out_len * 8)
  refine ⟨enc, henc, ?_, hx _ _, fun other => rfl⟩
  simp only [kmac_final, henc]

theorem claim_C7_kmac_final_witness :
    (∀ m n, ((fun _ : List Nat => fun n => List.replicate n 7) m n).length = n)
    ∧ ∃ enc,
      right_encode
          (if (⟨[1, 2], 32, 0⟩ : kmac_data_st).xof_mode ≠ 0 then 0
           else (⟨[1, 2], 32, 0⟩ : kmac_data_st).out_len * 8) = some enc
      ∧ kmac_final (fun _ n => List.replicate n 7) ⟨[1, 2], 32, 0⟩ 99
          = some ((fun _ : List Nat => fun n => List.replicate n 7)
              ((⟨[1, 2], 32, 0⟩ : kmac_data_st).absorbed ++ enc)
              (⟨[1, 2], 32, 0⟩ : kmac_data_st).out_len,
            (⟨[1, 2], 32, 0⟩ : kmac_data_st).out_len)
      ∧ ((fun _ : List Nat => fun n => List.replicate n 7)
            ((⟨[1, 2], 32, 0⟩ : kmac_data_st).absorbed ++ enc)
            (⟨[1, 2], 32, 0⟩ : kmac_data_st).out_len).length
          = (⟨[1, 2], 32, 0⟩ : kmac_data_st).out_len
      ∧ ∀ other : Nat,
          kmac_final (fun _ n => List.replicate n 7) ⟨[1, 2], 32, 0⟩ other
            = kmac_final (fun _ n => List.replicate n 7) ⟨[1, 2], 32, 0⟩ 99 :=
  ⟨fun _ n => List.length_replicate n 7,
    claim_C7_kmac_final (fun _ n => List.replicate n 7) ⟨[1, 2], 32, 0⟩ 99
      (fun _ n => List.length_replicate n 7)⟩

/-- C8: `encode_string S` emits `left_encode(8*|S|) || S` where the
length prefix is the minimum byte count (at least 1) followed by that
many big-endian value bytes; concretely, `encode_string "KMAC"` is
`01 20 4B 4D 41 43` and `encode_string ""` is `01 00`.  The bound
`8*|S| < 2^64` reflects the width of the C `size_t` bit count. -/
theorem claim_C8_encode_string (inp : List Nat)
    (h : 8 * inp.length < 2 ^ 64) :
    encode_string inp = some (left_encode_spec (8 * inp.length) ++ inp)
    ∧ encode_string [0x4B, 0x4D, 0x41, 0x43]
        = some [0x01, 0x20, 0x4B, 0x4D, 0x41, 0x43]
    ∧ encode_string [] = some [0x01, 0x00] := by
  refine ⟨?_, by decide, by decide⟩
  have hle := get_encode_size_le (8 * inp.length)
  simp only [encode_string, left_encode_spec]
  rw [if_neg (by omega)]
  rw [get_encode_size_eq_minBytes _ h, natToBeBytes_eq_map]

theorem claim_C8_encode_string_witness :
    8 * [0x4B, 0x4D, 0x41, 0x43].length < 2 ^ 64
    ∧ (encode_string [0x4B, 0x4D, 0x41, 0x43]
        = some (left_encode_spec (8 * [0x4B, 0x4D, 0x41, 0x43].length)
            ++ [0x4B, 0x4D, 0x41, 0x43])
      ∧ encode_string [0x4B, 0x4D, 0x41, 0x43]
          = some [0x01, 0x20, 0x4B, 0x4D, 0x41, 0x43]
      ∧ encode_string [] = some [0x01, 0x00]) :=
  ⟨by decide,
    claim_C8_encode_string [0x4B, 0x4D, 0x41, 0x43] (by decide)⟩

/-- C9 (amended): the `len > 0xFF` failure guard in `encode_string` is
dead code: `get_encode_size` caps its result at `sizeof(size_t) = 8`, so
the guard never fires and `encode_string` succeeds on every input, even
on strings whose bit length would need more than 255 prefix bytes. -/
theorem claim_C9_encode_string_guard_dead (inp : List Nat) :
    (encode_string inp).isSome = true
    ∧ get_encode_size (8 * inp.length) ≤ 8 := by
  refine ⟨?_, get_encode_size_le _⟩
  simp only [encode_string]
  rw [if_neg (by have := get_encode_size_le (8 * inp.length); omega)]
  rfl

/-- C9 (counterexample to the claim as stated): for a string of
`2 ^ 2037` bytes the minimum byte count of the bit length `2 ^ 2040`
is 256, which exceeds 255, yet `encode_string` succeeds instead of
failing. -/
theorem claim_C9_counterexample :
    255 < minBytes (8 * (List.replicate (2 ^ 2037) (0 : Nat)).length)
    ∧ (encode_string (List.replicate (2 ^ 2037) (0 : Nat))).isSome = true := by
  have hlen : (List.replicate (2 ^ 2037) (0 : Nat)).length = 2 ^ 2037 :=
    List.length_replicate _ _
  have h8 : 8 * (2 : Nat) ^ 2037 = 2 ^ 2040 := by
    have h : (2 : Nat) ^ 2040 = 2 ^ 3 * 2 ^ 2037 := by rw [← pow_add]
    omega
  constructor
  · rw [hlen, h8]
    have hmb : minBytes (2 ^ 2040) = 256 := by
      have h1 : (256 : Nat) ^ 255 ≤ 2 ^ 2040 := by
        have : (256 : Nat) ^ 255 = 2 ^ 2040 := by
          rw [show (256 : Nat) = 2 ^ 8 from rfl, ← pow_mul]
        omega
      have h2 : (2 : Nat) ^ 2040 < 256 ^ 256 := by
        have h2048 : (256 : Nat) ^ 256 = 2 ^ 2048 := by
          nth_rewrite 1 [show (256 : Nat) = 2 ^ 8 from rfl]
          rw [← pow_mul]
        have hlt : (2 : Nat) ^ 2040 < 2 ^ 2048 :=
          Nat.pow_lt_pow_right (by omega) (by omega)
        omega
      exact minBytes_of_bounds 255 _ h1 h2
    omega
  · simp only [encode_string]
    rw [if_neg (by
      have := get_encode_size_le (8 * (List.replicate (2 ^ 2037) (0 : Nat)).length)
      omega)]
    rfl

end OpenSSLProof
